import Mathlib

/-!
# Verification of the `consolation` IRC client core (`src/irc.rs`)

Shallow embedding of the protocol layer of the repository:

* `IrcMessageRaw.parse` — the line-grammar parser (`IrcMessageRaw::parse`);
* `Message.from_raw_msg` — the raw-record → typed-message mapper
  (`Message::from_raw_msg`);
* `Irc.receive` — the blocking receive loop (`Irc::receive`), modelled over
  the sequence of lines the buffered reader will deliver (the empty list
  standing for end-of-stream, i.e. a zero-length `read_line`);
* `IrcBuilder.connectSent` — the handshake lines written by
  `IrcBuilder::connect` / `Irc::request_capabilities` / `Irc::authenticate`.

The Rust code walks a `Peekable<Chars>` with by-reference `take_while`
adapters.  A by-reference `take_while(p)` consumes the matching run *and*
the first failing character, which is discarded.  `takeWhileC` reproduces
exactly this: it returns the matching run together with the remainder
*after* the discarded terminator.
-/

/-- Rust's `char::is_whitespace`: the Unicode `White_Space` property,
spelled out over code points. -/
def isWsChar (c : Char) : Bool :=
  let n := c.toNat
  (9 ≤ n && n ≤ 13) || n == 32 || n == 0x85 || n == 0xA0 || n == 0x1680 ||
    (0x2000 ≤ n && n ≤ 0x200A) || n == 0x2028 || n == 0x2029 ||
    n == 0x202F || n == 0x205F || n == 0x3000

/-- Rust's by-reference `take_while(p)` on a character iterator: returns the
maximal matching run, and the rest of the input *after* the first failing
character (which `take_while` consumes and discards).  If the input is
exhausted first, the rest is empty. -/
def takeWhileC (p : Char → Bool) : List Char → List Char × List Char
  | [] => ([], [])
  | c :: cs =>
    if p c then
      let r := takeWhileC p cs
      (c :: r.1, r.2)
    else
      ([], cs)

/-- The `std::io::ErrorKind` type, restricted to the one kind the program uses. -/
inductive ErrorKind where
  | invalidData
deriving DecidableEq

/-- The `std::io::Error` type as constructed by `io::Error::new(kind, msg)`. -/
structure IoError where
  kind : ErrorKind
  msg : String
deriving DecidableEq

/-- The error value produced by `IrcMessageRaw::parse` when the command name
comes out empty. -/
def missingCommandError : IoError :=
  ⟨ErrorKind.invalidData,
   "error parsing command name: expected command name, reached end of input"⟩

/-- The tag-scanning loop inside `IrcMessageRaw::parse`: repeatedly read a
key up to `=` (terminator consumed), stop if the key is empty, else read a
value up to `;` (terminator consumed) and continue.  The `fuel` argument
makes the recursion structural; `parseTags` supplies enough fuel (each
iteration strictly shrinks the input because the key is non-empty). -/
def parseTagsAux : Nat → List Char → List (String × String)
  | 0, _ => []
  | fuel + 1, l =>
    let kr := takeWhileC (fun c => c != '=') l
    if kr.1.isEmpty then
      []
    else
      let vr := takeWhileC (fun c => c != ';') kr.2
      (String.mk kr.1, String.mk vr.1) :: parseTagsAux fuel vr.2

/-- The tag loop run on a tags blob (the characters after `@` up to the
first whitespace). -/
def parseTags (l : List Char) : List (String × String) :=
  parseTagsAux l.length l

/-- The tags segment of `IrcMessageRaw::parse`: if the first character is
`@`, consume it, cut the blob at the first whitespace character (the
by-reference `take_while` consumes that whitespace), and run the tag loop
on the blob. -/
def stripTags (cs : List Char) : List (String × String) × List Char :=
  match cs with
  | [] => ([], [])
  | c :: rest =>
    if c = '@' then
      let tr := takeWhileC (fun x => !isWsChar x) rest
      (parseTags tr.1, tr.2)
    else
      ([], c :: rest)

/-- The prefix segment of `IrcMessageRaw::parse`: if the next character is
`:`, consume it and take characters up to the next whitespace (consumed) as
the sender prefix. -/
def stripPfx (cs : List Char) : Option String × List Char :=
  match cs with
  | [] => (none, [])
  | c :: rest =>
    if c = ':' then
      let pr := takeWhileC (fun x => !isWsChar x) rest
      (some (String.mk pr.1), pr.2)
    else
      (none, c :: rest)

/-- One step of the parameter loop of `IrcMessageRaw::parse`, with fuel for
structural recursion (each iteration consumes at least one character, so
`cs.length` fuel suffices):
* if the next character is `:`, consume it and take everything up to
  `\r`/`\n` (terminator consumed) as the parameter;
* otherwise take characters up to whitespace/`\r`/`\n` (terminator
  consumed);
* then, if the next character is `\r` or `\n`, the code drains the
  `\r`/`\n` run with another by-reference `take_while` — which also
  consumes and discards the first character after the run. -/
def paramsAux : Nat → List Char → List String
  | 0, _ => []
  | fuel + 1, cs =>
    match cs with
    | [] => []
    | c :: rest =>
      let pr :=
        if c = ':' then
          takeWhileC (fun x => x != '\r' && x != '\n') rest
        else
          takeWhileC (fun x => !isWsChar x && x != '\r' && x != '\n') (c :: rest)
      let after :=
        match pr.2 with
        | [] => ([] : List Char)
        | d :: ds =>
          if d = '\r' || d = '\n' then
            (takeWhileC (fun x => x == '\r' || x == '\n') (d :: ds)).2
          else
            d :: ds
      String.mk pr.1 :: paramsAux fuel after

/-- The parameter loop of `IrcMessageRaw::parse`, run on the characters
remaining after the command name. -/
def paramsLoop (cs : List Char) : List String :=
  paramsAux cs.length cs

/-- The struct `IrcMessageRaw`: the parsed-but-uninterpreted form of one protocol
line.  The Rust field `prefix` is called `pfx` here (`prefix` is a Lean
keyword). -/
structure IrcMessageRaw where
  tags : List (String × String)
  pfx : Option String
  command_name : String
  command_params : List String
deriving DecidableEq

/-- The function `IrcMessageRaw::parse`: tags segment, whitespace, prefix segment,
whitespace, command name (empty ⇒ the one hard error), then the parameter
loop. -/
def IrcMessageRaw.parse (input : String) : Except IoError IrcMessageRaw :=
  let t := stripTags input.data
  let cs1 := t.2.dropWhile isWsChar
  let p := stripPfx cs1
  let cs2 := p.2.dropWhile isWsChar
  let cr := takeWhileC (fun c => !isWsChar c) cs2
  if cr.1.isEmpty then
    Except.error missingCommandError
  else
    Except.ok ⟨t.1, p.1, String.mk cr.1, paramsLoop cr.2⟩

/-- The command name the parser extracts from a line: the same pipeline of
segment strips as `IrcMessageRaw.parse`, projected at the command-name
stage. -/
def commandNameOf (input : String) : String :=
  String.mk
    (takeWhileC (fun c => !isWsChar c)
      (((stripPfx (((stripTags input.data).2).dropWhile isWsChar)).2).dropWhile
        isWsChar)).1

/-- The `PrivMsg` payload struct. -/
structure PrivMsg where
  username : String
  message : String
deriving DecidableEq

/-- The `Message` enum (one variant). -/
inductive Message where
  | PrivMsg (m : PrivMsg)
deriving DecidableEq

/-- Rust's `s.split(sep).next().unwrap_or("")` for a one-character
separator: the first fragment of the split, i.e. the maximal prefix of `s`
before the first occurrence of `sep` — the whole of `s` when `sep` does not
occur (`split` always yields at least one fragment, so the `unwrap_or`
default is never used). -/
def splitFirst (s : String) (sep : Char) : String :=
  String.mk (s.data.takeWhile (fun c => c != sep))

/-- The function `Message::from_raw_msg`: dispatch on the command name; `PRIVMSG`
requires a present prefix and a parameter at index 1, each missing one
reported with `io::Error::new(InvalidData, "PRIVMSG missing prefix")` (the
same text in both arms, as in the source); any other command maps to no
message. -/
def Message.from_raw_msg (raw : IrcMessageRaw) : Except IoError (Option Message) :=
  if raw.command_name = "PRIVMSG" then
    match raw.pfx with
    | some p =>
      let username := splitFirst p '!'
      match raw.command_params[1]? with
      | some message => Except.ok (some (Message.PrivMsg ⟨username, message⟩))
      | none => Except.error ⟨ErrorKind.invalidData, "PRIVMSG missing prefix"⟩
    | none => Except.error ⟨ErrorKind.invalidData, "PRIVMSG missing prefix"⟩
  else
    Except.ok none

/-- The method `Irc::receive`, over the list of lines the buffered reader will still
deliver.  The empty list is end-of-stream: `read_line` returns `0` and the
loop returns `Ok(None)`.  Otherwise the next line is parsed and mapped;
parse/map errors propagate, a mapped message is returned together with the
remaining stream, and an unmapped line makes the loop read again. -/
def Irc.receive : List String → Except IoError (Option Message × List String)
  | [] => Except.ok (none, [])
  | l :: ls =>
    match IrcMessageRaw.parse l with
    | Except.error e => Except.error e
    | Except.ok raw =>
      match Message.from_raw_msg raw with
      | Except.error e => Except.error e
      | Except.ok (some m) => Except.ok (some m, ls)
      | Except.ok none => Irc.receive ls

/-- The builder struct `IrcBuilder`: accumulated configuration. -/
structure IrcBuilder where
  password : Option String
  nickname : Option String
  capabilities : List String
deriving DecidableEq

/-- The method `Irc::request_capabilities`: the single `CAP REQ` line it writes. -/
def Irc.request_capabilities (capabilities : List String) : List String :=
  ["CAP REQ :" ++ String.intercalate (" ") capabilities]

/-- The method `Irc::authenticate`: the `PASS` line (if a password is set) followed by
the `NICK` line (if a nickname is set). -/
def Irc.authenticate (password nickname : Option String) : List String :=
  (match password with
   | some p => ["PASS " ++ p]
   | none => []) ++
  (match nickname with
   | some n => ["NICK " ++ n]
   | none => [])

/-- The handshake lines `IrcBuilder::connect` writes after opening the
stream, in order: `request_capabilities` if at least one capability was
added, then `authenticate` if a password or nickname was set.  Each list
element is one `writeln!` line. -/
def IrcBuilder.connectSent (b : IrcBuilder) : List String :=
  (if b.capabilities.length > 0 then Irc.request_capabilities b.capabilities
   else []) ++
  (if b.password.isSome || b.nickname.isSome then
    Irc.authenticate b.password b.nickname
   else [])

/-! ## Basic lemmas about `takeWhileC` and `List.takeWhile` -/

theorem takeWhileC_all (p : Char → Bool) :
    ∀ l : List Char, (∀ c ∈ l, p c = true) → takeWhileC p l = (l, []) := by
  intro l
  induction l with
  | nil => intro _; rfl
  | cons c cs ih =>
    intro h
    have hc : p c = true := h c (List.mem_cons_self c cs)
    have ht := ih fun x hx => h x (List.mem_cons_of_mem c hx)
    simp [takeWhileC, hc, ht]

theorem takeWhileC_append (p : Char → Bool) (c : Char) :
    ∀ a b : List Char, (∀ x ∈ a, p x = true) → p c = false →
      takeWhileC p (a ++ c :: b) = (a, b) := by
  intro a
  induction a with
  | nil => intro b _ hc; simp [takeWhileC, hc]
  | cons x xs ih =>
    intro b h hc
    have hx : p x = true := h x (List.mem_cons_self x xs)
    have ht := ih b (fun y hy => h y (List.mem_cons_of_mem x hy)) hc
    simp [takeWhileC, hx, ht]

theorem string_mk_data (s : String) : String.mk s.data = s := rfl

theorem takeWhile_split_at_mem (a : Char) :
    ∀ l : List Char, a ∈ l →
      ∃ t, l = l.takeWhile (fun c => c != a) ++ a :: t := by
  intro l
  induction l with
  | nil => intro h; cases h
  | cons c cs ih =>
    intro h
    by_cases hca : c = a
    · subst hca
      refine ⟨cs, ?_⟩
      simp [List.takeWhile]
    · have hm : a ∈ cs := by
        rcases List.mem_cons.mp h with h' | h'
        · exact absurd h'.symm hca
        · exact h'
      obtain ⟨t, ht⟩ := ih hm
      refine ⟨t, ?_⟩
      have hpc : (c != a) = true := by simpa using hca
      simp only [List.takeWhile, hpc]
      rw [List.cons_append]
      exact congrArg (c :: ·) ht

/-! ## Claim theorems: the message mapper -/

/-- C1 counterexample: a `PRIVMSG` raw message whose prefix `"alice"`
contains no `'!'` maps to the username `"alice"` — the whole prefix — not
to the empty string the claim demands. -/
theorem privmsg_no_bang_counterexample :
    Message.from_raw_msg ⟨[], some ("alice"), "PRIVMSG", ["#chan", "hi"]⟩ =
      Except.ok (some (Message.PrivMsg ⟨"alice", "hi"⟩)) ∧
    ('!' ∉ "alice".data) ∧ ("alice" : String) ≠ "" :=
  ⟨rfl, by decide, by decide⟩

/-- C1 (amended): for every raw message with command `"PRIVMSG"`, a present
prefix and a parameter at index 1, the mapper produces a `PrivMsg` whose
username is the substring of the prefix before the first `'!'` — the whole
prefix when it contains no `'!'` — and whose body is parameter 1 verbatim. -/
theorem privmsg_username_before_bang (raw : IrcMessageRaw) (p b : String)
    (hcmd : raw.command_name = "PRIVMSG") (hpfx : raw.pfx = some p)
    (hb : raw.command_params[1]? = some b) :
    ∃ u : String,
      Message.from_raw_msg raw = Except.ok (some (Message.PrivMsg ⟨u, b⟩)) ∧
      (∀ c ∈ u.data, c ≠ '!') ∧
      ('!' ∉ p.data → u = p) ∧
      ('!' ∈ p.data → ∃ t, p.data = u.data ++ '!' :: t) := by
  refine ⟨splitFirst p '!', ?_, ?_, ?_, ?_⟩
  · simp [Message.from_raw_msg, hcmd, hpfx, hb]
  · intro c hc
    have h := List.mem_takeWhile_imp (l := p.data) (p := fun c => c != '!') hc
    simpa using h
  · intro hnot
    unfold splitFirst
    rw [List.takeWhile_eq_self_iff.mpr, string_mk_data]
    intro x hx
    simp only [bne_iff_ne, ne_eq]
    intro hxa
    exact hnot (hxa ▸ hx)
  · intro hmem
    obtain ⟨t, ht⟩ := takeWhile_split_at_mem '!' p.data hmem
    exact ⟨t, ht⟩

/-- C1 witness: the amended theorem applied at a concrete Twitch-style
raw message. -/
theorem privmsg_username_before_bang_witness :
    Message.from_raw_msg ⟨[], some ("alice!alice@host"), "PRIVMSG", ["#chan", "hello"]⟩ =
      Except.ok (some (Message.PrivMsg ⟨"alice", "hello"⟩)) := by
  obtain ⟨u, h1, -, -, -⟩ :=
    privmsg_username_before_bang ⟨[], some ("alice!alice@host"), "PRIVMSG", ["#chan", "hello"]⟩
      "alice!alice@host" "hello" rfl rfl rfl
  have h0 : Message.from_raw_msg
      ⟨[], some ("alice!alice@host"), "PRIVMSG", ["#chan", "hello"]⟩ =
      Except.ok (some (Message.PrivMsg ⟨"alice", "hello"⟩)) := rfl
  have h2 := h1.symm.trans h0
  simp only [Except.ok.injEq, Option.some.injEq, Message.PrivMsg.injEq,
    PrivMsg.mk.injEq] at h2
  rw [h1, h2.1]

theorem get1_eq_none {α : Type} (l : List α) (h : l.length < 2) : l[1]? = none := by
  match l with
  | [] => rfl
  | [_] => rfl
  | _ :: _ :: t => simp at h; omega

/-- C7: mapping a raw `"PRIVMSG"` with absent prefix or fewer than two
parameters fails with the `InvalidData` mapping error, and mapping any
other command name returns no message, never an error. -/
theorem privmsg_mapping_errors (raw : IrcMessageRaw) :
    (raw.command_name = "PRIVMSG" →
      (raw.pfx = none ∨ raw.command_params.length < 2) →
      Message.from_raw_msg raw =
        Except.error ⟨ErrorKind.invalidData, "PRIVMSG missing prefix"⟩) ∧
    (raw.command_name ≠ "PRIVMSG" → Message.from_raw_msg raw = Except.ok none) := by
  constructor
  · intro hcmd hcase
    rcases hcase with hpfx | hlen
    · simp [Message.from_raw_msg, hcmd, hpfx]
    · have hget : raw.command_params[1]? = none := get1_eq_none _ hlen
      cases hp : raw.pfx with
      | none => simp [Message.from_raw_msg, hcmd, hp]
      | some p => simp [Message.from_raw_msg, hcmd, hp, hget]
  · intro hcmd
    simp [Message.from_raw_msg, hcmd]

/-- C7 witness: both branches of the theorem at concrete raw messages. -/
theorem privmsg_mapping_errors_witness :
    Message.from_raw_msg ⟨[], none, "PRIVMSG", []⟩ =
      Except.error ⟨ErrorKind.invalidData, "PRIVMSG missing prefix"⟩ ∧
    Message.from_raw_msg ⟨[], some ("srv"), "001", ["a"]⟩ = Except.ok none :=
  ⟨(privmsg_mapping_errors _).1 rfl (Or.inl rfl),
   (privmsg_mapping_errors _).2 (by decide)⟩

/-- C10: the two `PRIVMSG` failure causes — missing prefix, and missing
second parameter — produce equal error values, of kind `InvalidData` with
the identical text `"PRIVMSG missing prefix"`. -/
theorem privmsg_errors_identical (r1 r2 : IrcMessageRaw) (e1 e2 : IoError)
    (h1c : r1.command_name = "PRIVMSG") (h1p : r1.pfx = none)
    (h2c : r2.command_name = "PRIVMSG") (h2p : r2.pfx ≠ none)
    (h2g : r2.command_params[1]? = none)
    (he1 : Message.from_raw_msg r1 = Except.error e1)
    (he2 : Message.from_raw_msg r2 = Except.error e2) :
    e1 = e2 ∧ e1.kind = ErrorKind.invalidData ∧ e1.msg = "PRIVMSG missing prefix" := by
  have hv1 : Message.from_raw_msg r1 =
      Except.error ⟨ErrorKind.invalidData, "PRIVMSG missing prefix"⟩ := by
    simp [Message.from_raw_msg, h1c, h1p]
  cases hp : r2.pfx with
  | none => exact absurd hp h2p
  | some p =>
    have hv2 : Message.from_raw_msg r2 =
        Except.error ⟨ErrorKind.invalidData, "PRIVMSG missing prefix"⟩ := by
      simp [Message.from_raw_msg, h2c, hp, h2g]
    rw [hv1] at he1
    rw [hv2] at he2
    injection he1 with he1'
    injection he2 with he2'
    rw [← he1', ← he2']
    exact ⟨rfl, rfl, rfl⟩

/-- The shared error value of both `PRIVMSG` mapping failures. -/
def mappingError : IoError := ⟨ErrorKind.invalidData, "PRIVMSG missing prefix"⟩

/-- C10 witness: the theorem applied to a prefix-less raw message and a
body-less raw message. -/
theorem privmsg_errors_identical_witness :
    mappingError.kind = ErrorKind.invalidData ∧
    mappingError.msg = "PRIVMSG missing prefix" :=
  (privmsg_errors_identical ⟨[], none, "PRIVMSG", []⟩
    ⟨[], some ("a!b"), "PRIVMSG", ["#c"]⟩ mappingError mappingError
    rfl rfl rfl (by simp) rfl rfl rfl).2

/-! ## Claim theorems: the parameter loop -/

theorem paramsAux_nil : ∀ f, paramsAux f [] = [] := by
  intro f
  cases f <;> rfl

/-- The concrete line refuting C2's "the loop stops" parenthetical. -/
def c2line : String := "CMD :a\nb"

/-- C2 counterexample: on the line `"CMD :a\nb"` the parameter loop
produces the parameter `"b"` *after* the trailing parameter `"a"`: it does
not stop when characters remain past the `'\n'`. -/
theorem trailing_param_counterexample :
    IrcMessageRaw.parse c2line = Except.ok ⟨[], none, "CMD", ["a", "b"]⟩ := rfl

/-- C2 (amended): at a parameter position, a `':'` is consumed and all
remaining characters up to `'\r'`/`'\n'` — spaces included — form one
parameter (an empty one when `':'` is immediately followed by line end,
not an error); when nothing but `'\r'`/`'\n'` characters follow that
terminator, the loop then stops, so this is the final parameter.  The
loop does not in general stop when other characters remain after the
`'\r'`/`'\n'` — the counterexample above produces a further parameter
there. -/
theorem trailing_param (body trail : List Char)
    (hbody : ∀ c ∈ body, c ≠ '\r' ∧ c ≠ '\n')
    (htrail : ∀ c ∈ trail, c = '\r' ∨ c = '\n') :
    paramsLoop (':' :: (body ++ trail)) = [String.mk body] := by
  have hbody' : ∀ c ∈ body, (c != '\r' && c != '\n') = true := by
    intro c hc
    obtain ⟨h1, h2⟩ := hbody c hc
    simp [h1, h2]
  unfold paramsLoop
  simp only [List.length_cons]
  rw [paramsAux]
  simp only [if_pos rfl]
  cases trail with
  | nil =>
    rw [List.append_nil, takeWhileC_all _ body hbody']
    simp [paramsAux_nil]
  | cons t ts =>
    have hft : (t != '\r' && t != '\n') = false := by
      rcases htrail t (List.mem_cons_self t ts) with h | h <;> simp [h]
    rw [takeWhileC_append _ t body ts hbody' hft]
    cases ts with
    | nil => simp [paramsAux_nil]
    | cons d ds =>
      have hd : d = '\r' ∨ d = '\n' :=
        htrail d (List.mem_cons_of_mem t (List.mem_cons_self d ds))
      have hdd : (d = '\r' || d = '\n') = true := by
        rcases hd with h | h <;> simp [h]
      have hall : ∀ c ∈ d :: ds, (c == '\r' || c == '\n') = true := by
        intro c hc
        rcases htrail c (List.mem_cons_of_mem t hc) with h | h <;> simp [h]
      simp only [hdd, if_true, takeWhileC_all _ _ hall]
      simp [paramsAux_nil]

/-- C2 witness: the amended theorem at the trailing parameter
`"hello world"` followed by `\r\n`. -/
theorem trailing_param_witness :
    paramsLoop (':' :: ("hello world".data ++ ['\r', '\n'])) = ["hello world"] :=
  trailing_param _ _ (by decide) (by decide)

/-! ## Claim theorems: the connect handshake -/

/-- C8: a successful connect writes exactly one `CAP REQ` line iff at
least one capability was added, then a `PASS` line iff a password was set,
then a `NICK` line iff a nickname was set, in this order, each its own
line. -/
theorem connect_handshake_lines (b : IrcBuilder) :
    b.connectSent =
      (if b.capabilities = [] then []
       else ["CAP REQ :" ++ String.intercalate (" ") b.capabilities]) ++
      (match b.password with
       | some p => ["PASS " ++ p]
       | none => []) ++
      (match b.nickname with
       | some n => ["NICK " ++ n]
       | none => []) := by
  rcases b with ⟨pw, nick, caps⟩
  unfold IrcBuilder.connectSent Irc.request_capabilities Irc.authenticate
  cases caps <;> cases pw <;> cases nick <;> simp

/-! ## Claim theorems: the receive loop -/

/-- C4: `receive` returns no message exactly at end-of-stream: on the
exhausted stream it returns none, and whenever it returns none the
remaining stream is empty, so a repeated call returns none again rather
than blocking or erroring. -/
theorem receive_none_iff_eof :
    Irc.receive [] = Except.ok (none, []) ∧
    ∀ lines rest, Irc.receive lines = Except.ok (none, rest) →
      rest = [] ∧ Irc.receive rest = Except.ok (none, rest) := by
  refine ⟨rfl, ?_⟩
  intro lines
  induction lines with
  | nil =>
    intro rest h
    simp only [Irc.receive, Except.ok.injEq, Prod.mk.injEq] at h
    rw [← h.2]
    exact ⟨rfl, rfl⟩
  | cons l ls ih =>
    intro rest h
    cases hp : IrcMessageRaw.parse l with
    | error e => simp [Irc.receive, hp] at h
    | ok raw =>
      cases hm : Message.from_raw_msg raw with
      | error e => simp [Irc.receive, hp, hm] at h
      | ok om =>
        cases om with
        | some m => simp [Irc.receive, hp, hm] at h
        | none =>
          simp only [Irc.receive, hp, hm] at h
          exact ih rest h

/-- C4 witness: the theorem applied to a one-line stream whose line parses
but maps to no message, so `receive` runs into end-of-stream. -/
theorem receive_none_iff_eof_witness :
    ([] : List String) = [] ∧ Irc.receive [] = Except.ok (none, []) :=
  receive_none_iff_eof.2 [":s 001 b :x\r\n"] [] (by rfl)

/-- C5: within one `receive` call, a line that parses but maps to no
message is discarded and reading continues on the rest of the stream,
while a line that maps to a message is returned immediately, the rest of
the stream left unread. -/
theorem receive_skips_unmapped (l : String) (ls : List String)
    (raw : IrcMessageRaw) (hp : IrcMessageRaw.parse l = Except.ok raw) :
    (Message.from_raw_msg raw = Except.ok none →
      Irc.receive (l :: ls) = Irc.receive ls) ∧
    ∀ m, Message.from_raw_msg raw = Except.ok (some m) →
      Irc.receive (l :: ls) = Except.ok (some m, ls) := by
  constructor
  · intro hm
    simp [Irc.receive, hp, hm]
  · intro m hm
    simp [Irc.receive, hp, hm]

/-- The `001` welcome line of the spec's end-to-end example. -/
def c5line1 : String := ":server 001 bot :Welcome\r\n"

/-- The well-formed `PRIVMSG` line of the spec's end-to-end example. -/
def c5line2 : String := ":alice!alice@host PRIVMSG #chan :hello world\r\n"

/-- C5 witness: after the unrecognized `001` line, the same `receive` call
returns the following `PRIVMSG` line's message. -/
theorem receive_skips_unmapped_witness :
    Irc.receive [c5line1, c5line2] =
      Except.ok (some (Message.PrivMsg ⟨"alice", "hello world"⟩), []) := by
  have h := (receive_skips_unmapped c5line1 [c5line2]
    ⟨[], some ("server"), "001", ["bot", "Welcome"]⟩ rfl).1 rfl
  rw [h]
  rfl

/-! ## Claim theorems: parse failure condition (C6) -/

theorem string_mk_eq_empty_iff (l : List Char) : String.mk l = "" ↔ l = [] := by
  constructor
  · intro h
    exact congrArg String.data h
  · intro h
    rw [h]

theorem dropWhile_all_nil (p : Char → Bool) (l : List Char)
    (h : ∀ c ∈ l, p c = true) : l.dropWhile p = [] :=
  List.dropWhile_eq_nil_iff.mpr fun x hx => by simpa using h x hx

theorem stripTags_all_ws (cs : List Char) (h : ∀ c ∈ cs, isWsChar c = true) :
    stripTags cs = ([], cs) := by
  cases cs with
  | nil => rfl
  | cons c rest =>
    have hc : c ≠ '@' := by
      intro hh
      have := h c (List.mem_cons_self c rest)
      rw [hh] at this
      exact absurd this (by decide)
    simp only [stripTags]
    rw [if_neg hc]

/-- C6: parsing fails exactly when the extracted command name is empty —
which happens in particular on empty or pure-whitespace input — and the
error is the missing-command-name error; in every other case parse
succeeds. -/
theorem parse_fails_iff_no_command (input : String) :
    ((∃ e, IrcMessageRaw.parse input = Except.error e) ↔ commandNameOf input = "") ∧
    (∀ e, IrcMessageRaw.parse input = Except.error e → e = missingCommandError) ∧
    ((∀ c ∈ input.data, isWsChar c = true) →
      IrcMessageRaw.parse input = Except.error missingCommandError) := by
  refine ⟨?_, ?_, ?_⟩
  · simp only [IrcMessageRaw.parse, commandNameOf]
    split
    next hemp =>
      constructor
      · intro _
        rw [string_mk_eq_empty_iff]
        exact List.isEmpty_iff.mp hemp
      · intro _
        exact ⟨missingCommandError, rfl⟩
    next hemp =>
      constructor
      · rintro ⟨e, he⟩
        cases he
      · intro hmk
        have : (takeWhileC (fun c => !isWsChar c)
            (((stripPfx (((stripTags input.data).2).dropWhile isWsChar)).2).dropWhile
              isWsChar)).1 = [] := (string_mk_eq_empty_iff _).mp hmk
        rw [← List.isEmpty_iff] at this
        exact absurd this hemp
  · simp only [IrcMessageRaw.parse]
    split
    · intro e he
      injection he with he'
      exact he'.symm
    · intro e he
      cases he
  · intro hws
    have h1 : stripTags input.data = ([], input.data) := stripTags_all_ws _ hws
    have h2 : input.data.dropWhile isWsChar = [] := dropWhile_all_nil _ _ hws
    simp only [IrcMessageRaw.parse, h1, h2]
    rfl

/-- C6 witness: the theorem's pure-whitespace conjunct at the input
`"   "`. -/
theorem parse_fails_iff_no_command_witness :
    IrcMessageRaw.parse ("   ") = Except.error missingCommandError :=
  (parse_fails_iff_no_command ("   ")).2.2 (by decide)

/-! ## Claim theorems: absent tags and prefix (C9) -/

/-- Projections of a successful parse back to the segment pipeline:
the tags are whatever the tags segment produced, the prefix whatever the
prefix segment produced after the whitespace skip. -/
theorem parse_ok_proj (input : String) (r : IrcMessageRaw)
    (h : IrcMessageRaw.parse input = Except.ok r) :
    r.tags = (stripTags input.data).1 ∧
    r.pfx = (stripPfx ((stripTags input.data).2.dropWhile isWsChar)).1 := by
  simp only [IrcMessageRaw.parse] at h
  split at h
  · cases h
  · injection h with h'
    rw [← h']
    exact ⟨rfl, rfl⟩

/-- The line refuting C9: leading whitespace, then a `':'` prefix. -/
def c9line : String := " :srv CMD"

/-- C9 counterexample: the first character of `" :srv CMD"` is a space —
neither `'@'` nor `':'` — yet parsing yields the present prefix `"srv"`,
because the parser skips whitespace before testing for `':'`. -/
theorem no_marker_counterexample :
    c9line.data.head? = some (' ') ∧
    IrcMessageRaw.parse c9line = Except.ok ⟨[], some ("srv"), "CMD", []⟩ :=
  ⟨rfl, rfl⟩

/-- C9 (amended): for every line whose first character is not `'@'` and
whose first non-whitespace character is not `':'`, a successful parse has
empty tags and an absent prefix. -/
theorem no_marker_no_tags_no_pfx (input : String) (r : IrcMessageRaw)
    (h1 : input.data.head? ≠ some '@')
    (h2 : (input.data.dropWhile isWsChar).head? ≠ some ':')
    (h : IrcMessageRaw.parse input = Except.ok r) :
    r.tags = [] ∧ r.pfx = none := by
  obtain ⟨ht, hp⟩ := parse_ok_proj input r h
  have hst : stripTags input.data = ([], input.data) := by
    cases hd : input.data with
    | nil => rfl
    | cons c rest =>
      have hc : c ≠ '@' := by
        intro hh
        rw [hd, hh] at h1
        exact h1 rfl
      simp only [stripTags]
      rw [if_neg hc]
  rw [hst] at ht hp
  have ht' : r.tags = [] := ht
  have hsp : stripPfx (input.data.dropWhile isWsChar) =
      (none, input.data.dropWhile isWsChar) := by
    cases hd : input.data.dropWhile isWsChar with
    | nil => rfl
    | cons c rest =>
      have hc : c ≠ ':' := by
        intro hh
        rw [hd, hh] at h2
        exact h2 rfl
      simp only [stripPfx]
      rw [if_neg hc]
  have hp' : r.pfx = (stripPfx (input.data.dropWhile isWsChar)).1 := hp
  rw [hsp] at hp'
  exact ⟨ht', hp'⟩

/-- The line used in the C9 witness. -/
def c9wline : String := "PING xyz\r\n"

/-- The raw message the C9 witness line parses to. -/
def c9wraw : IrcMessageRaw := ⟨[], none, "PING", ["xyz"]⟩

/-- C9 witness: the amended theorem at the line `"PING xyz\r\n"`. -/
theorem no_marker_no_tags_no_pfx_witness :
    c9wraw.tags = [] ∧ c9wraw.pfx = none :=
  no_marker_no_tags_no_pfx c9wline c9wraw (by decide) (by decide) rfl

/-! ## Claim theorems: the tags sequence (C3) -/

/-- Well-formedness of one `key=value` tag pair as it sits in a tags blob:
non-empty key, the key free of `'='`, `';'` and whitespace, the value free
of `';'` and whitespace. -/
def WfTag (p : String × String) : Prop :=
  p.1 ≠ "" ∧ (∀ c ∈ p.1.data, c ≠ '=' ∧ c ≠ ';' ∧ isWsChar c = false) ∧
    (∀ c ∈ p.2.data, c ≠ ';' ∧ isWsChar c = false)

instance (p : String × String) : Decidable (WfTag p) := by
  unfold WfTag
  infer_instance

/-- The wire form of a tags list: `key=value` pairs joined by `';'`. -/
def tagsBlob : List (String × String) → List Char
  | [] => []
  | (k, v) :: ps =>
    k.data ++ ('=' :: (v.data ++
      (match ps with
       | [] => ([] : List Char)
       | _ :: _ => ';' :: tagsBlob ps)))

theorem parseTagsAux_stop (f : Nat) (bad : List Char)
    (hbad : bad = [] ∨ ∃ t, bad = '=' :: t) : parseTagsAux f bad = [] := by
  cases f with
  | zero => rfl
  | succ f =>
    rcases hbad with rfl | ⟨t, rfl⟩
    · rfl
    · rw [parseTagsAux]
      simp [takeWhileC]

theorem tagsBlob_no_ws (pairs : List (String × String))
    (hwf : ∀ p ∈ pairs, WfTag p) :
    ∀ c ∈ tagsBlob pairs, isWsChar c = false := by
  induction pairs with
  | nil =>
    intro c hc
    simp [tagsBlob] at hc
  | cons p ps ih =>
    rcases p with ⟨k, v⟩
    intro c hc
    obtain ⟨-, hkc, hvc⟩ := hwf (k, v) (List.mem_cons_self _ _)
    have hih := ih fun q hq => hwf q (List.mem_cons_of_mem _ hq)
    cases ps with
    | nil =>
      simp only [tagsBlob, List.append_nil] at hc
      rcases List.mem_append.mp hc with h | h
      · exact (hkc c h).2.2
      · rcases List.mem_cons.mp h with rfl | h
        · decide
        · exact (hvc c h).2
    | cons q qs =>
      simp only [tagsBlob] at hc
      rcases List.mem_append.mp hc with h | h
      · exact (hkc c h).2.2
      · rcases List.mem_cons.mp h with rfl | h
        · decide
        · rcases List.mem_append.mp h with h | h
          · exact (hvc c h).2
          · rcases List.mem_cons.mp h with rfl | h
            · decide
            · exact hih c h

/-- The tag loop, run on a blob of well-formed `key=value` pairs followed
by a scan-terminating tail `T` (nothing, or a `';'` introducing an empty
or `'='`-initial pair), returns exactly the pairs, in order. -/
theorem parseTagsAux_blob (pairs : List (String × String)) :
    ∀ (T : List Char) (fuel : Nat),
      (∀ p ∈ pairs, WfTag p) →
      (T = [] ∨ (pairs ≠ [] ∧ ∃ bad, T = ';' :: bad ∧ (bad = [] ∨ ∃ t, bad = '=' :: t))) →
      (tagsBlob pairs ++ T).length ≤ fuel →
      parseTagsAux fuel (tagsBlob pairs ++ T) = pairs := by
  induction pairs with
  | nil =>
    intro T fuel _ hT _
    rcases hT with rfl | ⟨hne, -⟩
    · exact parseTagsAux_stop fuel _ (Or.inl rfl)
    · exact absurd rfl hne
  | cons p ps ih =>
    rcases p with ⟨k, v⟩
    intro T fuel hwf hT hfuel
    obtain ⟨hk, hkc, hvc⟩ := hwf (k, v) (List.mem_cons_self _ _)
    have hkne : ¬(k.data.isEmpty = true) := by
      intro hh
      apply hk
      rw [← string_mk_data k, List.isEmpty_iff.mp hh]
    have hkb : ∀ x ∈ k.data, (x != '=') = true := by
      intro x hx
      simpa using (hkc x hx).1
    have hvb : ∀ x ∈ v.data, (x != ';') = true := by
      intro x hx
      simpa using (hvc x hx).1
    cases ps with
    | nil =>
      have hshape : tagsBlob [(k, v)] ++ T = k.data ++ ('=' :: (v.data ++ T)) := by
        simp [tagsBlob, List.append_assoc]
      rw [hshape] at hfuel ⊢
      cases fuel with
      | zero =>
        exfalso
        have h0 : (k.data ++ ('=' :: (v.data ++ T))).length = 0 := Nat.le_zero.mp hfuel
        simp [List.length_append] at h0
      | succ f =>
        have hkey : takeWhileC (fun c => c != '=') (k.data ++ ('=' :: (v.data ++ T))) =
            (k.data, v.data ++ T) := takeWhileC_append _ _ _ _ hkb (by decide)
        simp only [parseTagsAux, hkey]
        rw [if_neg hkne]
        rcases hT with rfl | ⟨-, bad, rfl, hbad⟩
        · rw [List.append_nil, takeWhileC_all _ _ hvb]
          rw [parseTagsAux_stop f [] (Or.inl rfl)]
        · rw [takeWhileC_append _ _ _ _ hvb (by decide)]
          rw [parseTagsAux_stop f bad hbad]
    | cons q qs =>
      have hshape : tagsBlob ((k, v) :: q :: qs) ++ T =
          k.data ++ ('=' :: (v.data ++ (';' :: (tagsBlob (q :: qs) ++ T)))) := by
        simp [tagsBlob, List.append_assoc]
      rw [hshape] at hfuel ⊢
      cases fuel with
      | zero =>
        exfalso
        have h0 : (k.data ++ ('=' :: (v.data ++ (';' :: (tagsBlob (q :: qs) ++ T))))).length
            = 0 := Nat.le_zero.mp hfuel
        simp [List.length_append] at h0
      | succ f =>
        have hkey : takeWhileC (fun c => c != '=')
            (k.data ++ ('=' :: (v.data ++ (';' :: (tagsBlob (q :: qs) ++ T))))) =
            (k.data, v.data ++ (';' :: (tagsBlob (q :: qs) ++ T))) :=
          takeWhileC_append _ _ _ _ hkb (by decide)
        simp only [parseTagsAux, hkey]
        rw [if_neg hkne]
        rw [takeWhileC_append _ _ _ _ hvb (by decide)]
        have hT' : T = [] ∨ ((q :: qs) ≠ [] ∧
            ∃ bad, T = ';' :: bad ∧ (bad = [] ∨ ∃ t, bad = '=' :: t)) := by
          rcases hT with rfl | ⟨-, hbad⟩
          · exact Or.inl rfl
          · exact Or.inr ⟨List.cons_ne_nil q qs, hbad⟩
        have hfuel' : (tagsBlob (q :: qs) ++ T).length ≤ f := by
          simp only [List.length_append, List.length_cons] at hfuel ⊢
          omega
        rw [ih T f (fun p hp => hwf p (List.mem_cons_of_mem _ hp)) hT' hfuel']

/-- C3: for every well-formed line carrying a tags segment — `'@'`, then
well-formed `key=value` pairs joined by `';'`, optionally ended by a
scan-terminating `';'`-led fragment, then whitespace and the rest of the
line — the parsed tags are exactly those pairs, one entry per pair, in
input order, duplicate keys kept. -/
theorem tags_parsed_in_order (pairs : List (String × String))
    (T after : List Char) (r : IrcMessageRaw)
    (hwf : ∀ p ∈ pairs, WfTag p)
    (hT : T = [] ∨ (pairs ≠ [] ∧ ∃ bad, T = ';' :: bad ∧ (bad = [] ∨ ∃ t, bad = '=' :: t)))
    (hTws : ∀ c ∈ T, isWsChar c = false)
    (h : IrcMessageRaw.parse
        (String.mk ('@' :: ((tagsBlob pairs ++ T) ++ (' ' :: after)))) = Except.ok r) :
    r.tags = pairs := by
  have hproj : r.tags =
      (stripTags ('@' :: ((tagsBlob pairs ++ T) ++ (' ' :: after)))).1 :=
    (parse_ok_proj _ _ h).1
  have hbw : ∀ c ∈ tagsBlob pairs ++ T, (!isWsChar c) = true := by
    intro c hc
    rcases List.mem_append.mp hc with h' | h'
    · simp [tagsBlob_no_ws pairs hwf c h']
    · simp [hTws c h']
  have htw : takeWhileC (fun x => !isWsChar x) ((tagsBlob pairs ++ T) ++ (' ' :: after)) =
      (tagsBlob pairs ++ T, after) := takeWhileC_append _ _ _ _ hbw (by decide)
  have hproj' : r.tags = parseTags
      (takeWhileC (fun x => !isWsChar x) ((tagsBlob pairs ++ T) ++ (' ' :: after))).1 := hproj
  rw [htw] at hproj'
  have hproj2 : r.tags = parseTags (tagsBlob pairs ++ T) := hproj'
  rw [hproj2]
  exact parseTagsAux_blob pairs T _ hwf hT le_rfl

/-- Concrete tag pairs for the C3 witness, with a duplicated key. -/
def c3pairs : List (String × String) := [("a", "1"), ("a", "2")]

/-- The raw message the C3 witness line `"@a=1;a=2; CMD\r\n"` parses to. -/
def c3raw : IrcMessageRaw := ⟨[("a", "1"), ("a", "2")], none, "CMD", [""]⟩

/-- C3 witness: the theorem at two pairs with the same key and a trailing
`';'`: both pairs are kept, in order. -/
theorem tags_parsed_in_order_witness : c3raw.tags = c3pairs :=
  tags_parsed_in_order c3pairs [';'] ("CMD\r\n".data) c3raw (by decide)
    (Or.inr ⟨by decide, [], rfl, Or.inl rfl⟩) (by decide) rfl
